import Mathlib

/-!
Shallow embedding of the brewnanza embedder package
(src/packages/embedder/compare.py and src/packages/embedder/vocabulary.py).

Scores are rationals; Python's insertion-ordered `dict` is an association
list with distinct keys; Python's stable `sorted(..., reverse=True)` is
Mathlib's `List.insertionSort` with a score-descending relation (insertion
sort is the canonical stable sort, so it computes the same function).
The external collaborators are parameters: the rapidfuzz scorer
`fuzz.ratio` is `scorer : String → String → ℚ` (range 0..100), the
sentence-transformer model is `model : String → List ℚ`, and `json.loads`
is `loads : String → Option Mapping` (`none` meaning a JSONDecodeError).
-/

namespace Brewnanza

/- Batteries marks the Rat field operations irreducible, which blocks the
kernel evaluation used by `decide` on concrete runs of the matchers; restore
the default reducibility (this does not change any definition). -/
attribute [local semireducible] Rat.mul Rat.inv Rat.add Rat.sub

/-- Score-descending comparison used by every `sorted(..., key=lambda x: x[1], reverse=True)`
in compare.py. -/
def scoreGE (a b : String × ℚ) : Prop := b.2 ≤ a.2

instance : DecidableRel scoreGE := fun a b => inferInstanceAs (Decidable (b.2 ≤ a.2))

instance : IsTotal (String × ℚ) scoreGE := ⟨fun a b => le_total b.2 a.2⟩

instance : IsTrans (String × ℚ) scoreGE := ⟨fun _ _ _ h h' => le_trans h' h⟩

/-- Python `d.get(k, 0)` on an insertion-ordered dict. -/
def getV : List (String × ℚ) → String → ℚ
  | [], _ => 0
  | p :: ps, k => if p.1 = k then p.2 else getV ps k

/-- Python `d[k] = max(d.get(k, 0), v)` on an insertion-ordered dict:
an existing key keeps its position, a new key is appended. -/
def updMax : List (String × ℚ) → String → ℚ → List (String × ℚ)
  | [], k, v => [(k, max 0 v)]
  | p :: ps, k, v => if p.1 = k then (p.1, max p.2 v) :: ps else p :: updMax ps k v

/-- Python `d[k] = d.get(k, 0) + v` on an insertion-ordered dict. -/
def addTo : List (String × ℚ) → String → ℚ → List (String × ℚ)
  | [], k, v => [(k, v)]
  | p :: ps, k, v => if p.1 = k then (p.1, p.2 + v) :: ps else p :: addTo ps k v

/-- The association list has pairwise-distinct keys (a Python dict invariant). -/
def keysNodup (m : List (String × ℚ)) : Prop := (m.map Prod.fst).Nodup

/-- Python substring containment `a in b`. -/
def isSubstr (a b : String) : Bool :=
  (List.range (b.toList.length + 1)).any
    (fun i => decide ((b.toList.drop i).take a.toList.length = a.toList))

/-- Python `s.lower()` (character-wise, as for the ASCII vocabulary). -/
def lowerStr (s : String) : String := String.mk (s.toList.map Char.toLower)

/-- Splits at every whitespace character, keeping empty chunks (they are
filtered afterwards, giving exactly Python `str.split()` tokenization). -/
def splitWsAux : List Char → List Char → List String
  | [], acc => [String.mk acc.reverse]
  | c :: cs, acc =>
    if c.isWhitespace then String.mk acc.reverse :: splitWsAux cs []
    else splitWsAux cs (c :: acc)

/-- Python `query.lower().split()`: whitespace tokenization discarding empty tokens. -/
def queryWords (query : String) : List String :=
  (splitWsAux (lowerStr query).toList []).filter (fun w => decide (w ≠ ""))

/-- rapidfuzz `process.extract(query, choices, scorer=fuzz.ratio, limit, score_cutoff)`:
score every choice, keep those with score ≥ cutoff, return the best `limit`
in score-descending order. -/
def fuzz_extract (scorer : String → String → ℚ) (query : String) (choices : List String)
    (limit : ℕ) (cutoff : ℚ) : List (String × ℚ) :=
  (List.insertionSort scoreGE
    (choices.filterMap
      (fun c => if cutoff ≤ scorer query c then some (c, scorer query c) else none))).take limit

/-- The body of fuzzy_search's `for word in words` loop: skip short tokens,
record substring matches at score 1.0, then max-merge the per-token
rapidfuzz matches (cutoff 60, limit 5, scaled to [0,1]). -/
def wordStep (scorer : String → String → ℚ) (notes : List String)
    (cands : List (String × ℚ)) (word : String) : List (String × ℚ) :=
  if word.length < 3 then cands
  else
    let cands1 := notes.foldl
      (fun m note =>
        if isSubstr (lowerStr note) word || isSubstr word (lowerStr note)
        then updMax m note 1 else m) cands
    (fuzz_extract scorer word notes 5 60).foldl
      (fun m p => updMax m p.1 (p.2 / 100)) cands1

/-- The `candidates` dict built by compare.py's fuzzy_search before sorting:
per-token substring and fuzzy passes, then a whole-query fuzzy pass
(cutoff 50, limit 5). -/
def fuzzyCandidates (scorer : String → String → ℚ) (query : String)
    (notes : List String) : List (String × ℚ) :=
  let cands := (queryWords query).foldl (wordStep scorer notes) []
  (fuzz_extract scorer query notes 5 50).foldl
    (fun m p => updMax m p.1 (p.2 / 100)) cands

/-- compare.py `fuzzy_search(query, notes, limit)`. -/
def fuzzy_search (scorer : String → String → ℚ) (query : String) (notes : List String)
    (limit : ℕ) : List (String × ℚ) :=
  (List.insertionSort scoreGE (fuzzyCandidates scorer query notes)).take limit

/-- `np.dot` on equal-length vectors. -/
def dotProduct (a b : List ℚ) : ℚ := (List.zipWith (fun x y => x * y) a b).sum

/-- The `similarities` list built by compare.py's vector_search: each stored
embedding whose dot product with the query embedding reaches the threshold,
in the insertion order of the `note_embeddings` dict. -/
def vector_sims (query : String) (model : String → List ℚ)
    (note_embeddings : List (String × List ℚ)) (threshold : ℚ) : List (String × ℚ) :=
  let q := model ("query: " ++ query)
  note_embeddings.filterMap
    (fun p => if threshold ≤ dotProduct q p.2 then some (p.1, dotProduct q p.2) else none)

/-- compare.py `vector_search(query, model, note_embeddings, limit, threshold)`. -/
def vector_search (query : String) (model : String → List ℚ)
    (note_embeddings : List (String × List ℚ)) (limit : ℕ) (threshold : ℚ) :
    List (String × ℚ) :=
  (List.insertionSort scoreGE (vector_sims query model note_embeddings threshold)).take limit

/-- The `combined` dict of compare.py's hybrid_search: fuzzy results weighted
0.4, then vector results renormalized from [threshold,1] to [0,1], weighted
0.6, added (not replaced) into the same mapping. -/
def hybridCombined (fuzzy_results vector_results : List (String × ℚ))
    (vector_threshold : ℚ) : List (String × ℚ) :=
  let c1 := fuzzy_results.foldl (fun m p => addTo m p.1 (p.2 * (2/5))) []
  vector_results.foldl
    (fun m p => addTo m p.1 ((p.2 - vector_threshold) / (1 - vector_threshold) * (3/5))) c1

/-- compare.py `hybrid_search(query, notes, model, note_embeddings, limit, vector_threshold)`:
both matchers run with the widened internal limit 20, scores fused
additively, result sorted descending and truncated. -/
def hybrid_search (scorer : String → String → ℚ) (query : String) (notes : List String)
    (model : String → List ℚ) (note_embeddings : List (String × List ℚ))
    (limit : ℕ) (vector_threshold : ℚ) : List (String × ℚ) :=
  (List.insertionSort scoreGE
    (hybridCombined (fuzzy_search scorer query notes 20)
      (vector_search query model note_embeddings 20 vector_threshold)
      vector_threshold)).take limit

/-! vocabulary.py: the enrichment-oracle response handling of get_llm_mappings. -/

/-- The parsed shape of an oracle response (vocabulary.py expects keys
`mappedNotes` and `mappedProcesses`). -/
structure Mapping where
  mappedNotes : List String
  mappedProcesses : List String
deriving DecidableEq, Repr

def emptyMapping : Mapping := ⟨[], []⟩

/-- Python `s.strip()`. -/
def trimStr (s : String) : String :=
  String.mk ((s.toList.dropWhile Char.isWhitespace).reverse.dropWhile Char.isWhitespace).reverse

/-- Python `s.startswith(pre)`. -/
def strStarts (s pre : String) : Bool :=
  decide (s.toList.take pre.toList.length = pre.toList)

/-- The backtick character (code 96). -/
def tick : Char := Char.ofNat 96

/-- The markdown code-fence marker, three backticks. -/
def fence : String := String.mk [tick, tick, tick]

/-- Python `s.split(sep)` specialized to the three-character separator
(three backticks), scanning left to right without overlap. -/
def splitFenceAux : List Char → List Char → List String
  | [], acc => [String.mk acc.reverse]
  | c1 :: c2 :: c3 :: rest2, acc =>
    if c1 = tick ∧ c2 = tick ∧ c3 = tick then
      String.mk acc.reverse :: splitFenceAux rest2 []
    else splitFenceAux (c2 :: c3 :: rest2) (c1 :: acc)
  | c1 :: rest, acc => splitFenceAux rest (c1 :: acc)

def splitFence (s : String) : List String := splitFenceAux s.toList []

/-- The response-text cleanup inside vocabulary.py's get_llm_mappings:
`text = response_text.strip()`; if it starts with a code fence, take
`text.split(fence)[1]` (a string starting with the separator always has at
least two parts, so the Python index cannot fail) and drop a leading
"json" language tag. -/
def stripResponse (raw : String) : String :=
  let text := trimStr raw
  if strStarts text fence then
    let t := (splitFence text).getD 1 ""
    if strStarts t ("json") then String.mk (t.toList.drop 4) else t
  else text

/-- vocabulary.py `get_llm_mappings`: the Anthropic client call is external;
`responseText` is `response.content[0].text` and `loads` models
`json.loads` (`none` standing for a JSONDecodeError). On parse failure the
function returns empty mappings instead of raising. -/
def get_llm_mappings (loads : String → Option Mapping) (responseText : String) : Mapping :=
  match loads (stripResponse responseText) with
  | some m => m
  | none => emptyMapping

/-- vocabulary.py ALL_NOTES: the fixed vocabulary of tasting notes. -/
def ALL_NOTES : List String :=
  ["peach", "apricot", "nectarine", "plum", "cherry", "black cherry", "stone fruit", "prune",
   "persimmon",
   "citrus", "orange", "blood orange", "tangerine", "mandarin", "lemon", "lime", "grapefruit",
   "bergamot", "yuzu",
   "berry", "berries", "red berries", "dark berries", "blueberry", "raspberry", "strawberry",
   "blackberry", "blackcurrant", "redcurrant", "cranberry", "gooseberry",
   "tropical", "mango", "pineapple", "papaya", "passion fruit", "guava", "lychee", "coconut",
   "banana", "kiwi",
   "raisin", "date", "fig", "dried fruits", "fruitcake", "tamarind",
   "apple", "green apple", "pear", "grape", "melon", "watermelon", "pomegranate",
   "floral", "jasmine", "rose", "lavender", "violet", "hibiscus", "honeysuckle", "geranium",
   "chamomile",
   "honey", "caramel", "toffee", "fudge", "maple", "brown sugar", "molasses", "panela", "candy",
   "chocolate", "dark chocolate", "milk chocolate", "cocoa", "cacao",
   "nutty", "almond", "hazelnut", "walnut", "pistachio", "macadamia", "pecan", "marzipan",
   "praline",
   "cinnamon", "cardamom", "ginger", "baking spice",
   "tea", "black tea", "green tea", "oolong", "darjeeling",
   "wine", "red wine", "brandy", "rum", "jammy",
   "herbal", "lemongrass", "verbena", "eucalyptus", "tobacco",
   "brioche", "biscuit", "grains", "malt",
   "cream", "custard", "vanilla", "butter",
   "fresh", "crisp", "bright", "juicy", "complex",
   "fermented", "wild", "yeasty", "boozy", "winey"]

/-- The output shape claimed for the enrichment oracle: at most 8 notes, all
from the fixed vocabulary, and at most 3 processes. -/
def mappingWithinBounds (m : Mapping) : Prop :=
  m.mappedNotes.length ≤ 8 ∧ (∀ n ∈ m.mappedNotes, n ∈ ALL_NOTES) ∧
    m.mappedProcesses.length ≤ 3

instance (m : Mapping) : Decidable (mappingWithinBounds m) :=
  inferInstanceAs (Decidable (_ ∧ _ ∧ _))

/-! Claim-support definitions. -/

/-- The scores the body of fuzzy_search's word loop records for the key `k`
while processing `word`: 1.0 for each substring containment found while
scanning `notes`, then the scaled rapidfuzz scores for `k` among the
per-token matches. -/
def wordContribs (scorer : String → String → ℚ) (notes : List String) (k : String)
    (word : String) : List ℚ :=
  if word.length < 3 then []
  else
    (notes.filterMap
      (fun note =>
        if (isSubstr (lowerStr note) word || isSubstr word (lowerStr note)) = true ∧ note = k
        then some (1 : ℚ) else none))
    ++ ((fuzz_extract scorer word notes 5 60).filterMap
      (fun p => if p.1 = k then some (p.2 / 100) else none))

/-- All per-pass scores fuzzy_search records for the key `k`: the per-token
substring and fuzzy passes in token order, then the whole-query fuzzy pass. -/
def fuzzyContribs (scorer : String → String → ℚ) (query : String) (notes : List String)
    (k : String) : List ℚ :=
  ((queryWords query).map (wordContribs scorer notes k)).flatten
  ++ ((fuzz_extract scorer query notes 5 50).filterMap
    (fun p => if p.1 = k then some (p.2 / 100) else none))

/-- Ties (equal final scores) appear in the order the terms have in the
original vocabulary list, as claimed of the ranked output. -/
def tiesByVocabOrder (notes : List String) : List (String × ℚ) → Bool
  | [] => true
  | p :: ps =>
    ps.all (fun q => decide (p.2 = q.2 → notes.indexOf p.1 ≤ notes.indexOf q.1)) &&
      tiesByVocabOrder notes ps

/-! Helper lemmas about the insertion-ordered dict operations. -/

theorem getV_updMax (m : List (String × ℚ)) (k : String) (v : ℚ) (k' : String) :
    getV (updMax m k v) k' = if k' = k then max (getV m k') v else getV m k' := by
  induction m with
  | nil =>
    simp only [updMax, getV]
    by_cases h : k' = k
    · subst h; simp
    · have h' : ¬ k = k' := fun e => h e.symm
      simp [h, h']
  | cons p ps ih =>
    simp only [updMax]
    by_cases hp : p.1 = k
    · rw [if_pos hp]
      by_cases h : k' = k
      · subst h
        simp [getV, hp]
      · have hp' : ¬ p.1 = k' := fun e => h (e.symm.trans hp)
        simp [getV, hp', h]
    · rw [if_neg hp]
      by_cases hk : p.1 = k'
      · have h : ¬ k' = k := fun e => hp (hk.trans e)
        simp [getV, hk, h]
      · simp [getV, hk, ih]

theorem getV_addTo (m : List (String × ℚ)) (k : String) (v : ℚ) (k' : String) :
    getV (addTo m k v) k' = if k' = k then getV m k' + v else getV m k' := by
  induction m with
  | nil =>
    simp only [addTo, getV]
    by_cases h : k' = k
    · subst h; simp
    · have h' : ¬ k = k' := fun e => h e.symm
      simp [h, h']
  | cons p ps ih =>
    simp only [addTo]
    by_cases hp : p.1 = k
    · rw [if_pos hp]
      by_cases h : k' = k
      · subst h
        simp [getV, hp]
      · have hp' : ¬ p.1 = k' := fun e => h (e.symm.trans hp)
        simp [getV, hp', h]
    · rw [if_neg hp]
      by_cases hk : p.1 = k'
      · have h : ¬ k' = k := fun e => hp (hk.trans e)
        simp [getV, hk, h]
      · simp [getV, hk, ih]

theorem mem_keys_updMax (m : List (String × ℚ)) (k : String) (v : ℚ) (a : String) :
    a ∈ (updMax m k v).map Prod.fst ↔ a ∈ m.map Prod.fst ∨ a = k := by
  induction m with
  | nil => simp [updMax, eq_comm]
  | cons p ps ih =>
    simp only [updMax]
    by_cases hp : p.1 = k
    · rw [if_pos hp]
      simp only [List.map_cons, List.mem_cons]
      constructor
      · rintro (h | h)
        · exact Or.inl (Or.inl h)
        · exact Or.inl (Or.inr h)
      · rintro ((h | h) | h)
        · exact Or.inl h
        · exact Or.inr h
        · exact Or.inl (h ▸ hp.symm)
    · rw [if_neg hp]
      simp only [List.map_cons, List.mem_cons, ih]
      tauto

theorem mem_keys_addTo (m : List (String × ℚ)) (k : String) (v : ℚ) (a : String) :
    a ∈ (addTo m k v).map Prod.fst ↔ a ∈ m.map Prod.fst ∨ a = k := by
  induction m with
  | nil => simp [addTo, eq_comm]
  | cons p ps ih =>
    simp only [addTo]
    by_cases hp : p.1 = k
    · rw [if_pos hp]
      simp only [List.map_cons, List.mem_cons]
      constructor
      · rintro (h | h)
        · exact Or.inl (Or.inl h)
        · exact Or.inl (Or.inr h)
      · rintro ((h | h) | h)
        · exact Or.inl h
        · exact Or.inr h
        · exact Or.inl (h ▸ hp.symm)
    · rw [if_neg hp]
      simp only [List.map_cons, List.mem_cons, ih]
      tauto

theorem keysNodup_updMax {m : List (String × ℚ)} (k : String) (v : ℚ)
    (h : keysNodup m) : keysNodup (updMax m k v) := by
  induction m with
  | nil => simp [keysNodup, updMax]
  | cons p ps ih =>
    simp only [keysNodup, updMax] at h ⊢
    by_cases hp : p.1 = k
    · rw [if_pos hp]
      simpa using h
    · rw [if_neg hp]
      simp only [List.map_cons, List.nodup_cons] at h ⊢
      refine ⟨fun hmem => ?_, ih h.2⟩
      rcases (mem_keys_updMax ps k v p.1).mp hmem with hin | heq
      · exact h.1 hin
      · exact hp heq

theorem keysNodup_addTo {m : List (String × ℚ)} (k : String) (v : ℚ)
    (h : keysNodup m) : keysNodup (addTo m k v) := by
  induction m with
  | nil => simp [keysNodup, addTo]
  | cons p ps ih =>
    simp only [keysNodup, addTo] at h ⊢
    by_cases hp : p.1 = k
    · rw [if_pos hp]
      simpa using h
    · rw [if_neg hp]
      simp only [List.map_cons, List.nodup_cons] at h ⊢
      refine ⟨fun hmem => ?_, ih h.2⟩
      rcases (mem_keys_addTo ps k v p.1).mp hmem with hin | heq
      · exact h.1 hin
      · exact hp heq

theorem getV_eq_of_mem {m : List (String × ℚ)} {k : String} {v : ℚ}
    (hn : keysNodup m) (hm : (k, v) ∈ m) : getV m k = v := by
  induction m with
  | nil => cases hm
  | cons p ps ih =>
    simp only [keysNodup, List.map_cons, List.nodup_cons] at hn
    rcases List.mem_cons.mp hm with rfl | hm'
    · simp [getV]
    · have hk : p.1 ≠ k := by
        intro e
        exact hn.1 (e ▸ List.mem_map_of_mem Prod.fst hm')
      simp only [getV, if_neg hk]
      exact ih hn.2 hm'

theorem mem_of_getV_ne {m : List (String × ℚ)} {k : String}
    (h : getV m k ≠ 0) : (k, getV m k) ∈ m := by
  induction m with
  | nil => exact absurd rfl h
  | cons p ps ih =>
    by_cases hp : p.1 = k
    · simp only [getV, if_pos hp]
      have hpk : p = (k, p.2) := Prod.ext hp rfl
      rw [← hpk]
      exact List.mem_cons_self p ps
    · simp only [getV, if_neg hp] at h ⊢
      exact List.mem_cons_of_mem _ (ih h)

/-! Fold lemmas: how the candidate dicts accumulate scores. -/

theorem getV_foldl_updMax (f : ℚ → ℚ) (k : String) (ps : List (String × ℚ)) :
    ∀ m : List (String × ℚ),
      getV (ps.foldl (fun acc p => updMax acc p.1 (f p.2)) m) k =
        (ps.filterMap (fun p => if p.1 = k then some (f p.2) else none)).foldl max (getV m k) := by
  induction ps with
  | nil => intro m; rfl
  | cons p ps ih =>
    intro m
    simp only [List.foldl_cons, List.filterMap_cons]
    by_cases hp : p.1 = k
    · rw [if_pos hp, ih, getV_updMax, if_pos hp.symm, List.foldl_cons]
    · rw [if_neg hp, ih, getV_updMax, if_neg (fun e => hp e.symm)]

theorem getV_foldl_substrPass (c : String → Bool) (k : String) (ns : List String) :
    ∀ m : List (String × ℚ),
      getV (ns.foldl (fun acc n => if c n then updMax acc n 1 else acc) m) k =
        (ns.filterMap (fun n => if c n = true ∧ n = k then some (1 : ℚ) else none)).foldl
          max (getV m k) := by
  induction ns with
  | nil => intro m; rfl
  | cons n ns ih =>
    intro m
    simp only [List.foldl_cons, List.filterMap_cons]
    by_cases hc : c n = true
    · by_cases hn : n = k
      · rw [if_pos hc, if_pos ⟨hc, hn⟩, ih, getV_updMax, if_pos hn.symm, List.foldl_cons]
      · rw [if_pos hc, if_neg (fun h => hn h.2), ih, getV_updMax,
          if_neg (fun e => hn e.symm)]
    · rw [if_neg hc, if_neg (fun h => hc h.1), ih]

theorem getV_foldl_addTo (f : ℚ → ℚ) (k : String) (ps : List (String × ℚ)) :
    ∀ m : List (String × ℚ),
      getV (ps.foldl (fun acc p => addTo acc p.1 (f p.2)) m) k =
        getV m k + (ps.filterMap (fun p => if p.1 = k then some (f p.2) else none)).sum := by
  induction ps with
  | nil => intro m; simp
  | cons p ps ih =>
    intro m
    simp only [List.foldl_cons, List.filterMap_cons]
    by_cases hp : p.1 = k
    · rw [if_pos hp, ih, getV_addTo, if_pos hp.symm, List.sum_cons, add_assoc]
    · rw [if_neg hp, ih, getV_addTo, if_neg (fun e => hp e.symm)]

theorem keysNodup_foldl {α : Type} (step : List (String × ℚ) → α → List (String × ℚ))
    (hstep : ∀ m x, keysNodup m → keysNodup (step m x)) (l : List α) :
    ∀ m, keysNodup m → keysNodup (l.foldl step m) := by
  induction l with
  | nil => intro m h; exact h
  | cons x l ih => intro m h; exact ih (step m x) (hstep m x h)

theorem mem_keys_foldl {α : Type} (P : String → Prop)
    (step : List (String × ℚ) → α → List (String × ℚ)) (l : List α)
    (hstep : ∀ m x, x ∈ l → ∀ a, a ∈ (step m x).map Prod.fst → a ∈ m.map Prod.fst ∨ P a) :
    ∀ m a, a ∈ (l.foldl step m).map Prod.fst → a ∈ m.map Prod.fst ∨ P a := by
  induction l with
  | nil => intro m a h; exact Or.inl h
  | cons x l ih =>
    intro m a h
    rcases ih (fun m y hy => hstep m y (List.mem_cons_of_mem x hy)) (step m x) a h with h' | h'
    · exact hstep m x (List.mem_cons_self x l) a h'
    · exact Or.inr h'

theorem filterMap_key_nil {ps : List (String × ℚ)} {k : String} (f : ℚ → ℚ)
    (h : k ∉ ps.map Prod.fst) :
    ps.filterMap (fun p => if p.1 = k then some (f p.2) else none) = [] := by
  induction ps with
  | nil => rfl
  | cons p ps ih =>
    simp only [List.map_cons, List.mem_cons, not_or] at h
    rw [List.filterMap_cons_none (by rw [if_neg (fun e : p.1 = k => h.1 e.symm)])]
    exact ih h.2

theorem filterMap_key_singleton {ps : List (String × ℚ)} {k : String} {v : ℚ} (f : ℚ → ℚ)
    (hn : keysNodup ps) (hm : (k, v) ∈ ps) :
    ps.filterMap (fun p => if p.1 = k then some (f p.2) else none) = [f v] := by
  induction ps with
  | nil => cases hm
  | cons p ps ih =>
    simp only [keysNodup, List.map_cons, List.nodup_cons] at hn
    rcases List.mem_cons.mp hm with rfl | hm'
    · rw [List.filterMap_cons_some (by rw [if_pos rfl])]
      rw [filterMap_key_nil f hn.1]
    · have hk : p.1 ≠ k := by
        intro e
        exact hn.1 (e ▸ List.mem_map_of_mem Prod.fst hm')
      rw [List.filterMap_cons_none (by rw [if_neg hk])]
      exact ih hn.2 hm'

/-! Sort-and-truncate lemmas. -/

theorem mem_of_mem_sortTake {l : List (String × ℚ)} {p : String × ℚ} {n : ℕ}
    (h : p ∈ (List.insertionSort scoreGE l).take n) : p ∈ l :=
  (List.perm_insertionSort scoreGE l).mem_iff.mp (List.mem_of_mem_take h)

theorem mem_sortTake_of_all {l : List (String × ℚ)} {p : String × ℚ} {n : ℕ}
    (hlen : l.length ≤ n) (h : p ∈ l) : p ∈ (List.insertionSort scoreGE l).take n := by
  rw [List.take_of_length_le (by rw [List.length_insertionSort]; exact hlen)]
  exact (List.perm_insertionSort scoreGE l).mem_iff.mpr h

theorem keysNodup_sortTake {l : List (String × ℚ)} (h : keysNodup l) (n : ℕ) :
    keysNodup ((List.insertionSort scoreGE l).take n) := by
  have hperm : List.Perm ((List.insertionSort scoreGE l).map Prod.fst) (l.map Prod.fst) :=
    (List.perm_insertionSort scoreGE l).map Prod.fst
  have hsorted : ((List.insertionSort scoreGE l).map Prod.fst).Nodup :=
    hperm.nodup_iff.mpr h
  have hsub : List.Sublist (((List.insertionSort scoreGE l).take n).map Prod.fst)
      ((List.insertionSort scoreGE l).map Prod.fst) :=
    (List.take_sublist n _).map Prod.fst
  exact hsub.nodup hsorted

theorem sorted_sortTake (l : List (String × ℚ)) (n : ℕ) :
    List.Sorted scoreGE ((List.insertionSort scoreGE l).take n) :=
  List.Pairwise.sublist (List.take_sublist n _) (List.sorted_insertionSort scoreGE l)

theorem mem_fuzz_extract {scorer : String → String → ℚ} {q : String} {choices : List String}
    {lim : ℕ} {cutoff : ℚ} {p : String × ℚ}
    (h : p ∈ fuzz_extract scorer q choices lim cutoff) :
    p.1 ∈ choices ∧ p.2 = scorer q p.1 ∧ cutoff ≤ p.2 := by
  have h' : p ∈ choices.filterMap
      (fun c => if cutoff ≤ scorer q c then some (c, scorer q c) else none) :=
    mem_of_mem_sortTake h
  rcases List.mem_filterMap.mp h' with ⟨c, hc, he⟩
  by_cases hcut : cutoff ≤ scorer q c
  · rw [if_pos hcut] at he
    cases he
    exact ⟨hc, rfl, hcut⟩
  · rw [if_neg hcut] at he
    cases he

/-! Bounds on `foldl max`. -/

theorem init_le_foldl_max : ∀ (l : List ℚ) (a : ℚ), a ≤ l.foldl max a
  | [], _ => le_refl _
  | x :: l, a => le_trans (le_max_left a x) (init_le_foldl_max l (max a x))

theorem le_foldl_max : ∀ (l : List ℚ) (a x : ℚ), x ∈ l → x ≤ l.foldl max a := by
  intro l
  induction l with
  | nil => intro a x h; cases h
  | cons y l ih =>
    intro a x h
    rcases List.mem_cons.mp h with rfl | h'
    · exact le_trans (le_max_right a x) (init_le_foldl_max l (max a x))
    · exact ih (max a y) x h'

theorem foldl_max_le : ∀ (l : List ℚ) (a c : ℚ), (∀ x ∈ l, x ≤ c) → a ≤ c →
    l.foldl max a ≤ c := by
  intro l
  induction l with
  | nil => intro a c _ ha; exact ha
  | cons y l ih =>
    intro a c hl ha
    exact ih (max a y) c (fun x hx => hl x (List.mem_cons_of_mem y hx))
      (max_le ha (hl y (List.mem_cons_self y l)))

/-! Characterization of the fuzzy candidate dict. -/

theorem getV_wordStep (scorer : String → String → ℚ) (notes : List String) (k : String)
    (w : String) (m : List (String × ℚ)) :
    getV (wordStep scorer notes m w) k = (wordContribs scorer notes k w).foldl max (getV m k) := by
  unfold wordStep wordContribs
  by_cases hw : w.length < 3
  · rw [if_pos hw, if_pos hw]
    rfl
  · rw [if_neg hw, if_neg hw, List.foldl_append]
    have h1 := getV_foldl_updMax (fun v => v / 100) k (fuzz_extract scorer w notes 5 60)
      (notes.foldl
        (fun m note =>
          if isSubstr (lowerStr note) w || isSubstr w (lowerStr note)
          then updMax m note 1 else m) m)
    have h2 := getV_foldl_substrPass
      (fun note => isSubstr (lowerStr note) w || isSubstr w (lowerStr note)) k notes m
    exact h1.trans (by rw [h2])

theorem getV_wordsFold (scorer : String → String → ℚ) (notes : List String) (k : String)
    (ws : List String) :
    ∀ m, getV (ws.foldl (wordStep scorer notes) m) k =
      ((ws.map (wordContribs scorer notes k)).flatten).foldl max (getV m k) := by
  induction ws with
  | nil => intro m; rfl
  | cons w ws ih =>
    intro m
    simp only [List.foldl_cons, List.map_cons, List.flatten_cons, List.foldl_append]
    rw [ih, getV_wordStep]

theorem getV_fuzzyCandidates (scorer : String → String → ℚ) (query : String)
    (notes : List String) (k : String) :
    getV (fuzzyCandidates scorer query notes) k =
      (fuzzyContribs scorer query notes k).foldl max 0 := by
  unfold fuzzyCandidates fuzzyContribs
  rw [List.foldl_append]
  have h1 := getV_foldl_updMax (fun v => v / 100) k (fuzz_extract scorer query notes 5 50)
    ((queryWords query).foldl (wordStep scorer notes) [])
  have hz : getV ([] : List (String × ℚ)) k = 0 := rfl
  exact h1.trans (by rw [getV_wordsFold, hz])

theorem keysNodup_wordStep (scorer : String → String → ℚ) (notes : List String)
    (m : List (String × ℚ)) (w : String) (hm : keysNodup m) :
    keysNodup (wordStep scorer notes m w) := by
  unfold wordStep
  by_cases hw : w.length < 3
  · rw [if_pos hw]; exact hm
  · rw [if_neg hw]
    apply keysNodup_foldl _ (fun m p h => keysNodup_updMax _ _ h)
    apply keysNodup_foldl _ ?_ _ _ hm
    intro m n h
    by_cases hc : (isSubstr (lowerStr n) w || isSubstr w (lowerStr n)) = true
    · rw [if_pos hc]; exact keysNodup_updMax _ _ h
    · rw [if_neg hc]; exact h

theorem keysNodup_fuzzyCandidates (scorer : String → String → ℚ) (query : String)
    (notes : List String) : keysNodup (fuzzyCandidates scorer query notes) := by
  unfold fuzzyCandidates
  apply keysNodup_foldl _ (fun m p h => keysNodup_updMax _ _ h)
  apply keysNodup_foldl _ (fun m w h => keysNodup_wordStep scorer notes m w h)
  simp [keysNodup]

theorem mem_keys_wordStep {scorer : String → String → ℚ} {notes : List String}
    {m : List (String × ℚ)} {w : String} {a : String}
    (h : a ∈ (wordStep scorer notes m w).map Prod.fst) :
    a ∈ m.map Prod.fst ∨ a ∈ notes := by
  unfold wordStep at h
  by_cases hw : w.length < 3
  · rw [if_pos hw] at h; exact Or.inl h
  · rw [if_neg hw] at h
    rcases mem_keys_foldl (· ∈ notes) _ _
      (fun m p hp a ha => by
        rcases (mem_keys_updMax m p.1 (p.2 / 100) a).mp ha with h' | h'
        · exact Or.inl h'
        · exact Or.inr (h' ▸ (mem_fuzz_extract hp).1)) _ _ h with h' | h'
    · rcases mem_keys_foldl (· ∈ notes) _ _
        (fun m n hn a ha => by
          by_cases hc : (isSubstr (lowerStr n) w || isSubstr w (lowerStr n)) = true
          · rw [if_pos hc] at ha
            rcases (mem_keys_updMax m n 1 a).mp ha with h'' | h''
            · exact Or.inl h''
            · exact Or.inr (h'' ▸ hn)
          · rw [if_neg hc] at ha
            exact Or.inl ha) _ _ h' with h'' | h''
      · exact Or.inl h''
      · exact Or.inr h''
    · exact Or.inr h'

theorem mem_keys_fuzzyCandidates {scorer : String → String → ℚ} {query : String}
    {notes : List String} {a : String}
    (h : a ∈ (fuzzyCandidates scorer query notes).map Prod.fst) : a ∈ notes := by
  unfold fuzzyCandidates at h
  rcases mem_keys_foldl (· ∈ notes) _ _
    (fun m p hp a ha => by
      rcases (mem_keys_updMax m p.1 (p.2 / 100) a).mp ha with h' | h'
      · exact Or.inl h'
      · exact Or.inr (h' ▸ (mem_fuzz_extract hp).1)) _ _ h with h' | h'
  · rcases mem_keys_foldl (· ∈ notes) _ _
      (fun m w _ a ha => mem_keys_wordStep ha) _ _ h' with h'' | h''
    · simp at h''
    · exact h''
  · exact h'

/-! The hybrid combined-score dict. -/

theorem getV_foldl_addTo_of_mem (f : ℚ → ℚ) {k : String} {v : ℚ} {ps : List (String × ℚ)}
    (hn : keysNodup ps) (hv : (k, v) ∈ ps) (m : List (String × ℚ)) :
    getV (ps.foldl (fun acc p => addTo acc p.1 (f p.2)) m) k = getV m k + f v := by
  rw [getV_foldl_addTo, filterMap_key_singleton f hn hv, List.sum_cons, List.sum_nil, add_zero]

theorem getV_hybridCombined {fz vr : List (String × ℚ)} {vt : ℚ} {t : String} {sf sv : ℚ}
    (hfz : keysNodup fz) (hvr : keysNodup vr) (hf : (t, sf) ∈ fz) (hv : (t, sv) ∈ vr) :
    getV (hybridCombined fz vr vt) t = sf * (2/5) + (sv - vt) / (1 - vt) * (3/5) := by
  have h1 : getV (fz.foldl (fun m p => addTo m p.1 (p.2 * (2/5))) []) t = sf * (2/5) := by
    have h := getV_foldl_addTo_of_mem (fun v => v * (2/5)) hfz hf []
    simpa [getV] using h
  have h2 : getV (vr.foldl
      (fun m p => addTo m p.1 ((p.2 - vt) / (1 - vt) * (3/5)))
      (fz.foldl (fun m p => addTo m p.1 (p.2 * (2/5))) [])) t =
      sf * (2/5) + (sv - vt) / (1 - vt) * (3/5) := by
    have h := getV_foldl_addTo_of_mem (fun v => (v - vt) / (1 - vt) * (3/5)) hvr hv
      (fz.foldl (fun m p => addTo m p.1 (p.2 * (2/5))) [])
    simpa [h1] using h
  exact h2

theorem keysNodup_hybridCombined (fz vr : List (String × ℚ)) (vt : ℚ) :
    keysNodup (hybridCombined fz vr vt) := by
  unfold hybridCombined
  apply keysNodup_foldl _ (fun m p h => keysNodup_addTo _ _ h)
  apply keysNodup_foldl _ (fun m p h => keysNodup_addTo _ _ h)
  simp [keysNodup]

/-! The vector similarity list. -/

theorem keys_vector_sims_sublist (query : String) (model : String → List ℚ)
    (embs : List (String × List ℚ)) (threshold : ℚ) :
    List.Sublist ((vector_sims query model embs threshold).map Prod.fst)
      (embs.map Prod.fst) := by
  unfold vector_sims
  induction embs with
  | nil => simp
  | cons p ps ih =>
    by_cases hc : threshold ≤ dotProduct (model ("query: " ++ query)) p.2
    · rw [List.filterMap_cons_some (by rw [if_pos hc])]
      simp only [List.map_cons]
      exact ih.cons₂ p.1
    · rw [List.filterMap_cons_none (by rw [if_neg hc])]
      simp only [List.map_cons]
      exact ih.cons p.1

theorem keysNodup_vector_sims {query : String} {model : String → List ℚ}
    {embs : List (String × List ℚ)} {threshold : ℚ}
    (h : (embs.map Prod.fst).Nodup) :
    keysNodup (vector_sims query model embs threshold) :=
  (keys_vector_sims_sublist query model embs threshold).nodup h

theorem mem_vector_sims_intro {query : String} {model : String → List ℚ}
    {embs : List (String × List ℚ)} {threshold : ℚ} {note : String} {emb : List ℚ}
    (hmem : (note, emb) ∈ embs)
    (hge : threshold ≤ dotProduct (model ("query: " ++ query)) emb) :
    (note, dotProduct (model ("query: " ++ query)) emb) ∈
      vector_sims query model embs threshold := by
  unfold vector_sims
  exact List.mem_filterMap.mpr ⟨(note, emb), hmem, by rw [if_pos hge]⟩

theorem mem_vector_sims_elim {query : String} {model : String → List ℚ}
    {embs : List (String × List ℚ)} {threshold : ℚ} {note : String} {s : ℚ}
    (h : (note, s) ∈ vector_sims query model embs threshold) :
    ∃ p ∈ embs, p.1 = note ∧ s = dotProduct (model ("query: " ++ query)) p.2 ∧
      threshold ≤ s := by
  unfold vector_sims at h
  rcases List.mem_filterMap.mp h with ⟨p, hp, he⟩
  by_cases hc : threshold ≤ dotProduct (model ("query: " ++ query)) p.2
  · rw [if_pos hc] at he
    cases he
    exact ⟨p, hp, rfl, rfl, hc⟩
  · rw [if_neg hc] at he
    cases he

/-! Claim theorems. -/

/-- C10: for the query "q" (token too short for the lexical passes, scorer
scoring 0 everywhere), the term "a" is found only by the semantic matcher,
with cosine similarity exactly equal to the 0.75 threshold; hybrid_search
includes it in the ranked output with fused score exactly 0 instead of
dropping it. -/
theorem hybrid_zero_score_threshold_included :
    fuzzy_search (fun _ _ => 0) "q" ["a"] 20 = [] ∧
    vector_search "q" (fun _ => [1]) [("a", [3/4])] 20 (3/4) = [("a", 3/4)] ∧
    hybrid_search (fun _ _ => 0) "q" ["a"] (fun _ => [1]) [("a", [3/4])] 10 (3/4) =
      [("a", 0)] :=
  ⟨by decide, by decide, by decide⟩

/-- C2 counterexample: with vocabulary ["xyzzy", "abc"] (so "xyzzy" precedes
"abc") and the two-character query "ab" (token skipped, only the
whole-query pass runs), the lexical matcher finds only "abc" — the scorer
values used are real fuzz.ratio values, ratio("ab","abc") = 80 and
ratio("ab","xyzzy") = 0 — fusing to 0.8·0.4 = 8/25, while the semantic
matcher finds only "xyzzy" at similarity 53/60, normalizing to
(53/60 − 3/4)/(1/4)·0.6 = 8/25. The tied terms come back as "abc" before
"xyzzy" — combined-map insertion order, not the claimed original
vocabulary order. -/
theorem hybrid_tie_not_vocab_order :
    hybrid_search (fun _ c => if c = "abc" then 80 else 0) "ab" ["xyzzy", "abc"] (fun _ => [1])
      [("xyzzy", [53/60]), ("abc", [0])] 10 (3/4) = [("abc", 8/25), ("xyzzy", 8/25)] ∧
    tiesByVocabOrder ["xyzzy", "abc"]
      (hybrid_search (fun _ c => if c = "abc" then 80 else 0) "ab" ["xyzzy", "abc"] (fun _ => [1])
        [("xyzzy", [53/60]), ("abc", [0])] 10 (3/4)) = false :=
  ⟨by decide, by decide⟩

/-- C2 (amended): the RankedResult sequence returned by hybrid_search is
ordered descending by finalScore; the sort is stable, so two terms with
equal finalScore appear in the insertion order of the combined-score
mapping (lexical candidates in their ranked order first, then
vector-only candidates in embedding order) — not in original vocabulary
order. -/
theorem hybrid_ranked_desc_stable (scorer : String → String → ℚ) (query : String)
    (notes : List String) (model : String → List ℚ) (embs : List (String × List ℚ))
    (limit : ℕ) (vt : ℚ) :
    List.Sorted scoreGE (hybrid_search scorer query notes model embs limit vt) ∧
    (∀ a b : String × ℚ, b.2 ≤ a.2 →
      List.Sublist [a, b]
        (hybridCombined (fuzzy_search scorer query notes 20)
          (vector_search query model embs 20 vt) vt) →
      List.Sublist [a, b]
        (List.insertionSort scoreGE
          (hybridCombined (fuzzy_search scorer query notes 20)
            (vector_search query model embs 20 vt) vt))) :=
  ⟨sorted_sortTake _ _, fun _ _ hab h => List.pair_sublist_insertionSort hab h⟩

theorem hybrid_ranked_desc_stable_witness :
    List.Sorted scoreGE (hybrid_search (fun _ c => if c = "abc" then 80 else 0) "ab"
      ["xyzzy", "abc"] (fun _ => [1]) [("xyzzy", [53/60]), ("abc", [0])] 10 (3/4)) ∧
    List.Sublist [(("abc" : String), (8 : ℚ)/25), ("xyzzy", 8/25)]
      (List.insertionSort scoreGE
        (hybridCombined
          (fuzzy_search (fun _ c => if c = "abc" then 80 else 0) "ab" ["xyzzy", "abc"] 20)
          (vector_search "ab" (fun _ => [1]) [("xyzzy", [53/60]), ("abc", [0])] 20 (3/4))
          (3/4))) := by
  have h := hybrid_ranked_desc_stable (fun _ c => if c = "abc" then 80 else 0) "ab"
    ["xyzzy", "abc"] (fun _ => [1]) [("xyzzy", [53/60]), ("abc", [0])] 10 (3/4)
  refine ⟨h.1, ?_⟩
  have he : hybridCombined
      (fuzzy_search (fun _ c => if c = "abc" then 80 else 0) "ab" ["xyzzy", "abc"] 20)
      (vector_search "ab" (fun _ => [1]) [("xyzzy", [53/60]), ("abc", [0])] 20 (3/4)) (3/4) =
      [("abc", 8/25), ("xyzzy", 8/25)] := by decide
  exact h.2 ("abc", 8/25) ("xyzzy", 8/25) (le_refl _) (by rw [he])

/-- C6 counterexample: vector_search still embeds an empty query and compares
it against the stored embeddings, so with an embedding snapshot whose entry
has similarity 1 to the embedded empty query it returns a nonempty result —
the empty query does not yield an empty result for the semantic matcher. -/
theorem vector_search_empty_query_nonempty :
    vector_search "" (fun _ => [1]) [("a", [1])] 10 (3/4) = [("a", 1)] ∧
    vector_search "" (fun _ => [1]) [("a", [1])] 10 (3/4) ≠ [] :=
  ⟨by decide, by decide⟩

/-- C6 (amended): the matchers are total functions; an empty vocabulary or
embedding mapping yields an empty result for fuzzy_search, vector_search
and hybrid_search, and an empty query yields an empty lexical result
provided the fuzzy scorer keeps the empty query below the 50-point cutoff
against every note (as rapidfuzz ratio does); vector_search, however,
embeds even an empty query and may return matches. -/
theorem matchers_empty_inputs (scorer : String → String → ℚ) (query : String)
    (model : String → List ℚ) (limit : ℕ) (vt : ℚ) (notes : List String)
    (hempty : ∀ n ∈ notes, scorer "" n < 50) :
    fuzzy_search scorer query [] limit = [] ∧
    vector_search query model [] limit vt = [] ∧
    hybrid_search scorer query [] model [] limit vt = [] ∧
    fuzzy_search scorer "" notes limit = [] := by
  have hword : ∀ (m : List (String × ℚ)) (w : String), wordStep scorer [] m w = m := by
    intro m w
    unfold wordStep
    split
    · rfl
    · rfl
  have hfz : ∀ lim, fuzzy_search scorer query [] lim = [] := by
    intro lim
    have hcand : fuzzyCandidates scorer query [] = [] := by
      unfold fuzzyCandidates
      have h1 : fuzz_extract scorer query [] 5 50 = [] := rfl
      rw [h1, List.foldl_nil]
      exact List.foldl_fixed' (fun w => hword [] w) _
    unfold fuzzy_search
    rw [hcand]
    exact List.take_nil
  have hvs : ∀ lim, vector_search query model [] lim vt = [] := by
    intro lim
    unfold vector_search
    have h1 : vector_sims query model [] vt = [] := rfl
    rw [h1]
    exact List.take_nil
  refine ⟨hfz limit, hvs limit, ?_, ?_⟩
  · unfold hybrid_search
    rw [hfz 20, hvs 20]
    have h1 : hybridCombined [] [] vt = [] := rfl
    rw [h1]
    exact List.take_nil
  · have hqw : queryWords "" = [] := rfl
    have hex : fuzz_extract scorer "" notes 5 50 = [] := by
      unfold fuzz_extract
      have h1 : notes.filterMap
          (fun c => if 50 ≤ scorer "" c then some (c, scorer "" c) else none) = [] :=
        List.filterMap_eq_nil_iff.mpr
          (fun n hn => by rw [if_neg (not_le.mpr (hempty n hn))])
      rw [h1]
      rfl
    have hcand : fuzzyCandidates scorer "" notes = [] := by
      unfold fuzzyCandidates
      rw [hqw, hex, List.foldl_nil, List.foldl_nil]
    unfold fuzzy_search
    rw [hcand]
    exact List.take_nil

theorem matchers_empty_inputs_witness :
    fuzzy_search (fun _ _ => 0) "q" [] 10 = [] ∧
    vector_search "q" (fun _ => [1]) [] 10 (3/4) = [] ∧
    hybrid_search (fun _ _ => 0) "q" [] (fun _ => [1]) [] 10 (3/4) = [] ∧
    fuzzy_search (fun _ _ => 0) "" ["a"] 10 = [] :=
  matchers_empty_inputs (fun _ _ => 0) "q" (fun _ => [1]) 10 (3/4) ["a"] (by decide)

/-- C9: each matcher is a pure function of its declared inputs — replacing
the external scorer and embedding model by pointwise-equal ones leaves the
ordered result sequences of fuzzy_search, vector_search and hybrid_search
unchanged, so repeated identical queries against an unchanged snapshot
return identical ordered results. -/
theorem matchers_deterministic (scorer₁ scorer₂ : String → String → ℚ)
    (model₁ model₂ : String → List ℚ) (query : String) (notes : List String)
    (embs : List (String × List ℚ)) (limit : ℕ) (vt : ℚ)
    (hs : ∀ a b, scorer₁ a b = scorer₂ a b) (hm : ∀ t, model₁ t = model₂ t) :
    fuzzy_search scorer₁ query notes limit = fuzzy_search scorer₂ query notes limit ∧
    vector_search query model₁ embs limit vt = vector_search query model₂ embs limit vt ∧
    hybrid_search scorer₁ query notes model₁ embs limit vt =
      hybrid_search scorer₂ query notes model₂ embs limit vt := by
  have hseq : scorer₁ = scorer₂ := funext fun a => funext fun b => hs a b
  have hmeq : model₁ = model₂ := funext hm
  subst hseq hmeq
  exact ⟨rfl, rfl, rfl⟩

theorem matchers_deterministic_witness :
    fuzzy_search (fun _ _ => 0) "q" ["a"] 10 = fuzzy_search (fun _ _ => 0) "q" ["a"] 10 ∧
    vector_search "q" (fun _ => [1]) [("a", [1])] 10 (3/4) =
      vector_search "q" (fun _ => [1]) [("a", [1])] 10 (3/4) ∧
    hybrid_search (fun _ _ => 0) "q" ["a"] (fun _ => [1]) [("a", [1])] 10 (3/4) =
      hybrid_search (fun _ _ => 0) "q" ["a"] (fun _ => [1]) [("a", [1])] 10 (3/4) :=
  matchers_deterministic (fun _ _ => 0) (fun _ _ => 0) (fun _ => [1]) (fun _ => [1])
    "q" ["a"] [("a", [1])] 10 (3/4) (fun _ _ => rfl) (fun _ => rfl)

/-- A key appears at most once in an association list with nodup keys. -/
theorem assoc_unique {β : Type} {l : List (String × β)} (hn : (l.map Prod.fst).Nodup)
    {k : String} {v : β} (h1 : (k, v) ∈ l) {p : String × β} (h2 : p ∈ l) (hk : p.1 = k) :
    p = (k, v) := by
  induction l with
  | nil => cases h1
  | cons q qs ih =>
    simp only [List.map_cons, List.nodup_cons] at hn
    rcases List.mem_cons.mp h1 with rfl | h1'
    · rcases List.mem_cons.mp h2 with rfl | h2'
      · rfl
      · have h3 : p.1 ∈ qs.map Prod.fst := List.mem_map_of_mem Prod.fst h2'
        rw [hk] at h3
        exact absurd h3 hn.1
    · rcases List.mem_cons.mp h2 with rfl | h2'
      · have h4 := hn.1
        rw [hk] at h4
        exact absurd (List.mem_map_of_mem Prod.fst h1') h4
      · exact ih hn.2 h1' h2'

/-- C5: a stored embedding whose cosine similarity with the embedded query is
exactly the threshold enters vector_search's candidate set (the
`similarities` list), and one strictly below the threshold contributes no
entry at all. -/
theorem vector_threshold_boundary (query : String) (model : String → List ℚ)
    (embs : List (String × List ℚ)) (threshold : ℚ) (note : String) (emb : List ℚ)
    (hnodup : (embs.map Prod.fst).Nodup) (hmem : (note, emb) ∈ embs) :
    (dotProduct (model ("query: " ++ query)) emb = threshold →
      (note, threshold) ∈ vector_sims query model embs threshold) ∧
    (dotProduct (model ("query: " ++ query)) emb < threshold →
      ∀ s, (note, s) ∉ vector_sims query model embs threshold) := by
  constructor
  · intro he
    have h := mem_vector_sims_intro hmem (le_of_eq he.symm)
    rwa [he] at h
  · intro hlt s hm
    rcases mem_vector_sims_elim hm with ⟨p, hp, hp1, hps, hge⟩
    have hpe : p = (note, emb) := assoc_unique hnodup hmem hp hp1
    rw [hpe] at hps
    rw [hps] at hge
    exact absurd hge (not_le.mpr hlt)

theorem vector_threshold_boundary_witness :
    (("x" : String), (3 : ℚ)/4) ∈
      vector_sims "q" (fun _ => [1]) [("x", [3/4]), ("y", [1/2])] (3/4) ∧
    (("y" : String), (1 : ℚ)/2) ∉
      vector_sims "q" (fun _ => [1]) [("x", [3/4]), ("y", [1/2])] (3/4) := by
  constructor
  · exact (vector_threshold_boundary "q" (fun _ => [1]) [("x", [3/4]), ("y", [1/2])] (3/4)
      "x" [3/4] (by decide) (by decide)).1 (by decide)
  · exact (vector_threshold_boundary "q" (fun _ => [1]) [("x", [3/4]), ("y", [1/2])] (3/4)
      "y" [1/2] (by decide) (by decide)).2 (by decide) (1/2)

/-- C8: get_llm_mappings returns the empty mapping whenever parsing the
fence-stripped response fails, instead of raising; and a markdown-wrapped
JSON response is handled by stripping the code-fence markers (and the
"json" language tag) before parsing, as shown on a concrete fenced
response. -/
theorem get_llm_mappings_recovery (loads : String → Option Mapping) (text : String)
    (hfail : loads (stripResponse text) = none) :
    get_llm_mappings loads text = emptyMapping ∧
    get_llm_mappings
      (fun s =>
        if s = "\n\x7b\"mappedNotes\": [\"berry\"], \"mappedProcesses\": [\"washed\"]\x7d\n"
        then some ⟨["berry"], ["washed"]⟩ else none)
      ("```json\n\x7b\"mappedNotes\": [\"berry\"], \"mappedProcesses\": [\"washed\"]\x7d\n```") =
      ⟨["berry"], ["washed"]⟩ := by
  constructor
  · unfold get_llm_mappings
    rw [hfail]
  · decide

theorem get_llm_mappings_recovery_witness :
    get_llm_mappings (fun _ => none) "totally malformed" = emptyMapping ∧
    get_llm_mappings
      (fun s =>
        if s = "\n\x7b\"mappedNotes\": [\"berry\"], \"mappedProcesses\": [\"washed\"]\x7d\n"
        then some ⟨["berry"], ["washed"]⟩ else none)
      ("```json\n\x7b\"mappedNotes\": [\"berry\"], \"mappedProcesses\": [\"washed\"]\x7d\n```") =
      ⟨["berry"], ["washed"]⟩ :=
  get_llm_mappings_recovery (fun _ => none) "totally malformed" rfl

/-- C7 counterexample: get_llm_mappings performs no validation of the parsed
oracle response; a syntactically valid JSON response carrying nine invented
notes is returned as-is, violating both the ≤ 8 bound and the
drawn-from-the-vocabulary requirement. -/
theorem get_llm_mappings_unvalidated :
    ¬ mappingWithinBounds
      (get_llm_mappings
        (fun s =>
          if s = "\x7b\"mappedNotes\": [\"z1\", \"z2\", \"z3\", \"z4\", \"z5\", \"z6\", \"z7\", \"z8\", \"z9\"], \"mappedProcesses\": []\x7d"
          then some ⟨["z1", "z2", "z3", "z4", "z5", "z6", "z7", "z8", "z9"], []⟩ else none)
        "\x7b\"mappedNotes\": [\"z1\", \"z2\", \"z3\", \"z4\", \"z5\", \"z6\", \"z7\", \"z8\", \"z9\"], \"mappedProcesses\": []\x7d") := by
  decide

/-- C7 (amended): the ≤ 8 / vocabulary-only / ≤ 3 output shape is requested
in the prompt but not enforced by get_llm_mappings, which returns the parsed
response unvalidated; the bounds therefore hold exactly when every response
the parser accepts satisfies them — in particular the parse-failure
fallback (the empty mapping) does. -/
theorem get_llm_mappings_bounds_conditional (loads : String → Option Mapping) (text : String)
    (hok : ∀ m, loads (stripResponse text) = some m → mappingWithinBounds m) :
    mappingWithinBounds (get_llm_mappings loads text) := by
  unfold get_llm_mappings
  cases h : loads (stripResponse text) with
  | none => exact (by decide : mappingWithinBounds emptyMapping)
  | some m => exact hok m h

theorem get_llm_mappings_bounds_conditional_witness :
    mappingWithinBounds (get_llm_mappings (fun _ => none) "oops") :=
  get_llm_mappings_bounds_conditional (fun _ => none) "oops"
    (fun _ h => Option.noConfusion h)

/-- C1: a term present in both the lexical top-20 and the semantic top-20
result sets gets, in hybrid_search's combined mapping, the fused score
lexicalScore·0.4 + (similarity − threshold)/(1 − threshold)·0.6 exactly
(rationals, so no floating-point tolerance is needed), and that is the
score it carries in the ranked output whenever it appears there. -/
theorem hybrid_additive_fusion (scorer : String → String → ℚ) (query : String)
    (notes : List String) (model : String → List ℚ) (embs : List (String × List ℚ))
    (limit : ℕ) (vt : ℚ) (t : String) (sf sv : ℚ)
    (hnodup : (embs.map Prod.fst).Nodup)
    (hf : (t, sf) ∈ fuzzy_search scorer query notes 20)
    (hv : (t, sv) ∈ vector_search query model embs 20 vt) :
    getV (hybridCombined (fuzzy_search scorer query notes 20)
        (vector_search query model embs 20 vt) vt) t =
      sf * (2/5) + (sv - vt) / (1 - vt) * (3/5) ∧
    ∀ s, (t, s) ∈ hybrid_search scorer query notes model embs limit vt →
      s = sf * (2/5) + (sv - vt) / (1 - vt) * (3/5) := by
  have hfzn : keysNodup (fuzzy_search scorer query notes 20) :=
    keysNodup_sortTake (keysNodup_fuzzyCandidates scorer query notes) 20
  have hvrn : keysNodup (vector_search query model embs 20 vt) :=
    keysNodup_sortTake (keysNodup_vector_sims hnodup) 20
  have hmain := @getV_hybridCombined (fuzzy_search scorer query notes 20)
    (vector_search query model embs 20 vt) vt t sf sv hfzn hvrn hf hv
  refine ⟨hmain, fun s hs => ?_⟩
  have hcn : keysNodup (hybridCombined (fuzzy_search scorer query notes 20)
      (vector_search query model embs 20 vt) vt) :=
    keysNodup_hybridCombined _ _ _
  have hmem : (t, s) ∈ hybridCombined (fuzzy_search scorer query notes 20)
      (vector_search query model embs 20 vt) vt := mem_of_mem_sortTake hs
  exact (getV_eq_of_mem hcn hmem).symm.trans hmain

theorem hybrid_additive_fusion_witness :
    getV (hybridCombined (fuzzy_search (fun _ _ => 60) "abc" ["xyz"] 20)
        (vector_search "abc" (fun _ => [1]) [("xyz", [4/5])] 20 (3/4)) (3/4)) "xyz" =
      (3/5) * (2/5) + ((4/5) - 3/4) / (1 - 3/4) * (3/5) ∧
    (9 : ℚ)/25 = (3/5) * (2/5) + ((4/5) - 3/4) / (1 - 3/4) * (3/5) := by
  have h := hybrid_additive_fusion (fun _ _ => 60) "abc" ["xyz"] (fun _ => [1])
    [("xyz", [4/5])] 10 (3/4) "xyz" (3/5) (4/5) (by decide) (by decide) (by decide)
  exact ⟨h.1, h.2 (9/25) (by decide)⟩

/-- C4: the score the fuzzy matcher's candidate dict assigns a term is the
max-fold (never a sum) over all that term's per-pass scores — the 1.0
substring hits and the scaled rapidfuzz scores of the per-token passes, in
token order, followed by the whole-query pass — and any score fuzzy_search
returns for that term equals this max. -/
theorem fuzzy_max_merge (scorer : String → String → ℚ) (query : String)
    (notes : List String) (k : String) (limit : ℕ) :
    getV (fuzzyCandidates scorer query notes) k =
      (fuzzyContribs scorer query notes k).foldl max 0 ∧
    ∀ s, (k, s) ∈ fuzzy_search scorer query notes limit →
      s = (fuzzyContribs scorer query notes k).foldl max 0 := by
  refine ⟨getV_fuzzyCandidates scorer query notes k, fun s hs => ?_⟩
  have hmem : (k, s) ∈ fuzzyCandidates scorer query notes := mem_of_mem_sortTake hs
  exact (getV_eq_of_mem (keysNodup_fuzzyCandidates scorer query notes) hmem).symm.trans
    (getV_fuzzyCandidates scorer query notes k)

theorem fuzzy_max_merge_witness :
    getV (fuzzyCandidates (fun _ _ => 0) "berrylicious" ["berry", "cherry"]) "berry" =
      (fuzzyContribs (fun _ _ => 0) "berrylicious" ["berry", "cherry"] "berry").foldl max 0 ∧
    (1 : ℚ) =
      (fuzzyContribs (fun _ _ => 0) "berrylicious" ["berry", "cherry"] "berry").foldl max 0 := by
  have h := fuzzy_max_merge (fun _ _ => 0) "berrylicious" ["berry", "cherry"] "berry" 10
  exact ⟨h.1, h.2 1 (by decide)⟩

/-- Any scaled rapidfuzz contribution is at most 1 when the scorer is bounded
by 100. -/
theorem extract_contrib_le_one {scorer : String → String → ℚ}
    (hb : ∀ a b, scorer a b ≤ 100) {q : String} {choices : List String} {lim : ℕ}
    {cutoff : ℚ} {k : String} {x : ℚ}
    (hx : x ∈ (fuzz_extract scorer q choices lim cutoff).filterMap
      (fun p => if p.1 = k then some (p.2 / 100) else none)) : x ≤ 1 := by
  rcases List.mem_filterMap.mp hx with ⟨p, hp, he⟩
  by_cases hc : p.1 = k
  · rw [if_pos hc] at he
    cases he
    have h2 := (mem_fuzz_extract hp).2.1
    have h3 := hb q p.1
    rw [← h2] at h3
    linarith
  · rw [if_neg hc] at he
    cases he

theorem fuzzyContribs_le_one {scorer : String → String → ℚ}
    (hb : ∀ a b, scorer a b ≤ 100) (query : String) (notes : List String) (k : String) :
    ∀ x ∈ fuzzyContribs scorer query notes k, x ≤ 1 := by
  intro x hx
  unfold fuzzyContribs at hx
  rcases List.mem_append.mp hx with hx | hx
  · rcases List.mem_flatten.mp hx with ⟨l, hl, hxl⟩
    rcases List.mem_map.mp hl with ⟨w, _, rfl⟩
    unfold wordContribs at hxl
    by_cases hlen : w.length < 3
    · rw [if_pos hlen] at hxl
      cases hxl
    · rw [if_neg hlen] at hxl
      rcases List.mem_append.mp hxl with hx1 | hx1
      · rcases List.mem_filterMap.mp hx1 with ⟨n, _, he⟩
        by_cases hc : (isSubstr (lowerStr n) w || isSubstr w (lowerStr n)) = true ∧ n = k
        · rw [if_pos hc] at he
          cases he
          exact le_refl 1
        · rw [if_neg hc] at he
          cases he
      · exact extract_contrib_le_one hb hx1
  · exact extract_contrib_le_one hb hx

theorem one_mem_fuzzyContribs {scorer : String → String → ℚ} {query : String}
    {notes : List String} {note w : String}
    (hw : w ∈ queryWords query) (hlen : ¬ w.length < 3)
    (hsub : (isSubstr (lowerStr note) w || isSubstr w (lowerStr note)) = true)
    (hnote : note ∈ notes) :
    (1 : ℚ) ∈ fuzzyContribs scorer query notes note := by
  unfold fuzzyContribs
  refine List.mem_append.mpr (Or.inl ?_)
  refine List.mem_flatten.mpr ⟨wordContribs scorer notes note w, List.mem_map_of_mem _ hw, ?_⟩
  unfold wordContribs
  rw [if_neg hlen]
  refine List.mem_append.mpr (Or.inl ?_)
  exact List.mem_filterMap.mpr ⟨note, hnote, by rw [if_pos ⟨hsub, rfl⟩]⟩

theorem getV_fuzzyCandidates_substring {scorer : String → String → ℚ}
    (hb : ∀ a b, scorer a b ≤ 100) {query : String} {notes : List String} {note w : String}
    (hw : w ∈ queryWords query) (hlen : ¬ w.length < 3)
    (hsub : (isSubstr (lowerStr note) w || isSubstr w (lowerStr note)) = true)
    (hnote : note ∈ notes) :
    getV (fuzzyCandidates scorer query notes) note = 1 := by
  rw [getV_fuzzyCandidates]
  exact le_antisymm
    (foldl_max_le _ 0 1 (fuzzyContribs_le_one hb query notes note) (by norm_num))
    (le_foldl_max _ 0 1 (one_mem_fuzzyContribs hw hlen hsub hnote))

theorem length_fuzzyCandidates_le (scorer : String → String → ℚ) (query : String)
    (notes : List String) :
    (fuzzyCandidates scorer query notes).length ≤ notes.length := by
  have hsub : (fuzzyCandidates scorer query notes).map Prod.fst ⊆ notes :=
    fun a ha => mem_keys_fuzzyCandidates ha
  have hsp := List.subperm_of_subset (keysNodup_fuzzyCandidates scorer query notes) hsub
  have hle := hsp.length_le
  rwa [List.length_map] at hle

/-- C3: whenever a surviving query token and a vocabulary term contain one
another (case-insensitively) in either direction, the fuzzy candidate dict
assigns that term the score exactly 1, any score fuzzy_search returns for
the term is exactly 1, and in particular fuzzy_search on vocabulary
["berry", "cherry"] and query "berrylicious" returns ("berry", 1). -/
theorem fuzzy_substring_score_one (scorer : String → String → ℚ)
    (hb : ∀ a b, scorer a b ≤ 100) (query : String) (notes : List String)
    (note w : String) (limit : ℕ) (hw : w ∈ queryWords query) (hlen : ¬ w.length < 3)
    (hsub : (isSubstr (lowerStr note) w || isSubstr w (lowerStr note)) = true)
    (hnote : note ∈ notes) :
    getV (fuzzyCandidates scorer query notes) note = 1 ∧
    (∀ s, (note, s) ∈ fuzzy_search scorer query notes limit → s = 1) ∧
    ("berry", (1 : ℚ)) ∈ fuzzy_search scorer "berrylicious" ["berry", "cherry"] 10 := by
  have hmain := getV_fuzzyCandidates_substring hb hw hlen hsub hnote
  refine ⟨hmain, fun s hs => ?_, ?_⟩
  · have hm : (note, s) ∈ fuzzyCandidates scorer query notes := mem_of_mem_sortTake hs
    exact (getV_eq_of_mem (keysNodup_fuzzyCandidates scorer query notes) hm).symm.trans hmain
  · have hb1 : getV (fuzzyCandidates scorer "berrylicious" ["berry", "cherry"]) "berry" = 1 :=
      @getV_fuzzyCandidates_substring scorer hb "berrylicious" ["berry", "cherry"] "berry"
        "berrylicious" (by decide) (by decide) (by decide) (by decide)
    have hne : getV (fuzzyCandidates scorer "berrylicious" ["berry", "cherry"]) "berry" ≠ 0 := by
      rw [hb1]
      norm_num
    have hmem := mem_of_getV_ne hne
    rw [hb1] at hmem
    refine mem_sortTake_of_all ?_ hmem
    calc (fuzzyCandidates scorer "berrylicious" ["berry", "cherry"]).length
        ≤ (["berry", "cherry"] : List String).length := length_fuzzyCandidates_le _ _ _
      _ ≤ 10 := by norm_num

theorem fuzzy_substring_score_one_witness :
    getV (fuzzyCandidates (fun _ _ => 0) "berrylicious" ["berry", "cherry"]) "berry" = 1 ∧
    ("berry", (1 : ℚ)) ∈ fuzzy_search (fun _ _ => 0) "berrylicious" ["berry", "cherry"] 10 := by
  have h := fuzzy_substring_score_one (fun _ _ => 0) (fun _ _ => by norm_num) "berrylicious"
    ["berry", "cherry"] "berry" "berrylicious" 10 (by decide) (by decide) (by decide) (by decide)
  exact ⟨h.1, h.2.2⟩

end Brewnanza
